import Mathlib

/-!
Verification of the substrait-lang disassembler (`disas.py`) against its
specification.

Python strings are modelled as lists of Unicode code points (`LC := List Nat`);
Python string concatenation is list append, and f-string interpolation is
spelled out as explicit appends.  Decoded JSON documents are modelled by the
`Json` inductive below; Python `dict`s (which preserve insertion order) become
association lists.  Every definition is translated line by line from
`src/disas.py`; source line numbers are given in the doc comments.
-/

/-- A Python string: a finite sequence of Unicode code points. -/
abbrev LC := List Nat

/-- Code points of a Lean string literal, for writing concrete Python strings. -/
def lc (s : String) : LC := s.data.map Char.toNat

/-- Membership in the character class `[a-zA-Z0-9_]`, i.e. the complement of
`UNSAFE_CHAR_RE` (disas.py line 7). -/
def wordChar (c : Nat) : Bool :=
  decide ((97 ≤ c ∧ c ≤ 122) ∨ (65 ≤ c ∧ c ≤ 90) ∨ (48 ≤ c ∧ c ≤ 57) ∨ c = 95)

/-- Membership in `[a-zA-Z_]`, the first character class of `IDENT_RE`
(disas.py line 4). -/
def identStartChar (c : Nat) : Bool :=
  decide ((97 ≤ c ∧ c ≤ 122) ∨ (65 ≤ c ∧ c ≤ 90) ∨ c = 95)

/-- ASCII digit test.  Where the source calls `str.isnumeric` (line 15) every
character has already been replaced into `[A-Za-z0-9_]`, on which Python's
Unicode-numeric test coincides with the ASCII digit test. -/
def digitChar (c : Nat) : Bool := decide (48 ≤ c ∧ c ≤ 57)

/-- `is_ident` (disas.py lines 5-6): full match of `[a-zA-Z_][a-zA-Z0-9_]*`. -/
def is_ident (s : LC) : Bool :=
  match s with
  | [] => false
  | c :: rest => identStartChar c && rest.all wordChar

/-- `MULTI_UNDERSCORE_RE.sub('_', name)` (disas.py line 12): collapse every
run of underscores (code point 95) to a single underscore. -/
def collapseU : LC → LC
  | [] => []
  | [c] => [c]
  | c :: d :: rest =>
    if c = 95 ∧ d = 95 then collapseU (d :: rest) else c :: collapseU (d :: rest)

/-- No two adjacent underscores: the shape `MULTI_UNDERSCORE_RE` leaves
behind.  Used to reason about `collapseU` and the idempotency of
`make_ident`. -/
def noAdj : LC → Prop
  | [] => True
  | c :: rest => (c = 95 → rest.head? ≠ some 95) ∧ noAdj rest

/-- `make_ident(*components)` (disas.py lines 9-17): join the components with
an underscore, replace every character outside `[a-zA-Z0-9_]` with an
underscore, collapse runs of underscores, drop one trailing underscore, and
prefix an underscore if the result is empty or starts with a digit. -/
def make_ident (components : List LC) : LC :=
  let name := List.intercalate [95] components
  let name := name.map (fun c => if wordChar c then c else 95)
  let name := collapseU name
  let name := if name.getLast? = some 95 then name.dropLast else name
  match name with
  | [] => [95]
  | c :: rest => if digitChar c then 95 :: c :: rest else c :: rest

/-- Upper-case hexadecimal digit for a value below 16 (for `{oc:04X}`). -/
def hexDigU (d : Nat) : Nat := if d < 10 then 48 + d else 55 + d

/-- The four upper-case hex digits of `f'{oc:04X}'` for `oc ≤ 0xFFFF`
(disas.py line 33). -/
def toHex4 (n : Nat) : LC :=
  [hexDigU (n / 4096 % 16), hexDigU (n / 256 % 16), hexDigU (n / 16 % 16), hexDigU (n % 16)]

/-- The per-character `escape` helper inside `make_string` (disas.py lines
20-33): printable ASCII (0x20-0x7E) and anything above the 16-bit boundary
pass through; backspace, form feed, newline, carriage return and tab get
short escapes; every other 16-bit character becomes `\uXXXX`. -/
def escapeChar (c : Nat) : LC :=
  if (32 ≤ c ∧ c ≤ 126) ∨ c > 65535 then [c]
  else if c = 8 then [92, 98]
  else if c = 12 then [92, 102]
  else if c = 10 then [92, 110]
  else if c = 13 then [92, 114]
  else if c = 9 then [92, 116]
  else 92 :: 117 :: toHex4 c

/-- `make_string(contents)` (disas.py lines 19-35): escape every character and
wrap the result in double quotes (code point 34). -/
def make_string (contents : LC) : LC :=
  34 :: (contents.map escapeChar).flatten ++ [34]

/-- Value of an upper-case-or-digit hexadecimal digit character.  Used only by
the un-escaper below. -/
def hexValU (c : Nat) : Option Nat :=
  if 48 ≤ c ∧ c ≤ 57 then some (c - 48)
  else if 65 ≤ c ∧ c ≤ 70 then some (c - 55)
  else none

mutual
/-- Modelled from the spec (testable property, §8, and claim C3): the inverse
direction of the escape rules of `make_string`.  `\b \f \n \r \t` map back to
their control characters, `\uXXXX` maps back to the 16-bit code point, any
other non-backslash character stands for itself, and a backslash starting no
well-formed escape is malformed (`none`). -/
def unescapeContents : LC → Option LC
  | [] => some []
  | c :: r =>
    if c = 92 then unescEscape r
    else (unescapeContents r).map (fun t => c :: t)
def unescEscape : LC → Option LC
  | [] => none
  | e :: r2 =>
    if e = 98 then (unescapeContents r2).map (fun t => 8 :: t)
    else if e = 102 then (unescapeContents r2).map (fun t => 12 :: t)
    else if e = 110 then (unescapeContents r2).map (fun t => 10 :: t)
    else if e = 114 then (unescapeContents r2).map (fun t => 13 :: t)
    else if e = 116 then (unescapeContents r2).map (fun t => 9 :: t)
    else if e = 117 then unescHex4 r2
    else none
def unescHex4 : LC → Option LC
  | a :: b :: c2 :: d :: r3 =>
    match hexValU a, hexValU b, hexValU c2, hexValU d with
    | some x, some y, some z, some w =>
      (unescapeContents r3).map (fun t => (4096 * x + 256 * y + 16 * z + w) :: t)
    | _, _, _, _ => none
  | _ => none
end

/-- Modelled from the spec (claim C3): un-escape a double-quoted literal by
stripping the surrounding quotes and reversing the escape rules. -/
def unescapeLiteral (l : LC) : Option LC :=
  match l with
  | [] => none
  | c :: rest =>
    if c = 34 ∧ rest.getLast? = some 34 then unescapeContents rest.dropLast else none

/-- Decimal digits of a natural number; the fuel argument (first) is an upper
bound on the number making the recursion structural, `decRepr` passes the
number itself which always suffices. -/
def decReprAux : Nat → Nat → LC
  | 0, n => [48 + n % 10]
  | fuel + 1, n => if n < 10 then [48 + n] else decReprAux fuel (n / 10) ++ [48 + n % 10]

/-- Python `str(n)` / f-string rendering of a non-negative integer. -/
def decRepr (n : Nat) : LC := decReprAux n n

/-- Python `str(n)` for an integer (decimal, `-` prefix when negative). -/
def intRepr (n : Int) : LC := if n < 0 then 45 :: decRepr n.natAbs else decRepr n.toNat

/-- Value of a decimal digit string (inverse of `decRepr`, used to prove
injectivity of the numeric suffixes of `uniquify`). -/
def decVal (l : LC) : Nat := l.foldl (fun a c => 10 * a + (c - 48)) 0

/-- The `while` loop of `uniquify` (disas.py lines 114-120): try `name_i`,
`name_(i+1)`, ...  The fuel argument makes the recursion structural; the
caller passes `used.length + 1`, which always suffices by pigeonhole
(`uniquify_go_found` below), so the zero-fuel fallback is never reached. -/
def uniquify_go (used : List LC) (name : LC) : Nat → Nat → LC
  | 0, i => name ++ 95 :: decRepr i
  | fuel + 1, i =>
    let cand := name ++ 95 :: decRepr i
    if cand ∈ used then uniquify_go used name fuel (i + 1) else cand

/-- `uniquify(name)` (disas.py lines 106-120).  The run-scoped `used_names`
set is modelled as a list threaded through the run; the function returns the
issued name and the updated set.  The source's `assert is_ident(name)` is a
debug precondition (spec §4.3) that cannot fire at any call site, every
candidate being produced by `make_ident`. -/
def uniquify (used : List LC) (name : LC) : LC × List LC :=
  if name ∈ used then
    let r := uniquify_go used name (used.length + 1) 2
    (r, r :: used)
  else (name, name :: used)

/-- Driver for claim C8: issue one name per candidate, threading the
issued-name set through the run, and collect the results in order. -/
def uniquifyAll : List LC → List LC → List LC × List LC
  | used, [] => ([], used)
  | used, cand :: rest =>
    let p := uniquify used cand
    let q := uniquifyAll p.2 rest
    (p.1 :: q.1, q.2)

/-- A decoded JSON value (the output of the external `json.loads` collaborator,
spec §6).  Numbers are modelled as integers — the only numeric values any
claim touches; the disassembler treats scalar leaves uniformly.  Python
`bool` is a separate constructor because `isinstance(True, int)` holds in
Python (`bool` is a subclass of `int`); see `isinst` and `jintVal`.  Mappings
are insertion-ordered association lists, as Python dicts preserve insertion
order. -/
inductive Json where
  | null
  | bool (b : Bool)
  | int (n : Int)
  | str (s : LC)
  | arr (items : List Json)
  | obj (fields : List (LC × Json))

/-- The `typ` argument of `MessageUnpacker.pop`: the four `isinstance` kinds
`disas` uses (`int`, `str`, `list`, `dict`). -/
inductive Kind where
  | kint
  | kstr
  | klist
  | kdict
deriving DecidableEq

/-- Python `isinstance(v, typ)` for those kinds.  A `bool` passes the `int`
check (`bool` is an `int` subclass in Python). -/
def isinst (v : Json) (k : Kind) : Bool :=
  match v, k with
  | .int _, .kint => true
  | .bool _, .kint => true
  | .str _, .kstr => true
  | .arr _, .klist => true
  | .obj _, .kdict => true
  | _, _ => false

/-- The exceptions `disas` can raise, with their diagnostic payloads.
`unknownKeys` is the `ValueError` of `MessageUnpacker.__exit__`;
`listPopArgs` is the `TypeError` Python raises when `list.pop` is called with
a key and a default (its only parameter is an integer index); `joinNonStr` is
the `TypeError` from `', '.join(...)` over non-string items; `notIterable`
covers the `TypeError`s from iterating or taking `len()` of a non-container;
`noPopAttr` / `noItemsAttr` are the `AttributeError`s for a missing `.pop` /
`.items`; `nameErr` is the `NameError` for an undefined global. -/
inductive Err where
  | missingField (ctxt key : LC)
  | typeMismatch (ctxt key : LC)
  | unknownKeys (ctxt : LC) (keys : List LC)
  | malformedOneof (ctxt : LC)
  | unknownVariant (ctxt tag : LC)
  | illegalAnchor (decl anchor : LC)
  | invalidElementType
  | listPopArgs
  | joinNonStr
  | notIterable
  | noPopAttr
  | noItemsAttr
  | nameErr (name : LC)
deriving DecidableEq

/-- Ordered-mapping lookup (first — and in a decoded document only —
occurrence of the key). -/
def jlookup : List (LC × Json) → LC → Option Json
  | [], _ => none
  | (k, v) :: rest, key => if k = key then some v else jlookup rest key

/-- Remove a key from an ordered mapping (the removal `dict.pop` performs). -/
def jremove : List (LC × Json) → LC → List (LC × Json)
  | [], _ => []
  | (k, v) :: rest, key => if k = key then rest else (k, v) :: jremove rest key

/-- The keys of an ordered mapping, in order. -/
def jkeys (fields : List (LC × Json)) : List LC := fields.map (fun f => f.1)

/-- Python truthiness of a decoded value (`if self.obj:`, `if extension_uris
or extensions:`, ...). -/
def truthy : Json → Bool
  | .null => false
  | .bool b => b
  | .int n => decide (n ≠ 0)
  | .str s => decide (s ≠ [])
  | .arr items => !items.isEmpty
  | .obj fields => !fields.isEmpty

/-- `MessageUnpacker.pop(key, typ, default)` (disas.py lines 46-53), on an
arbitrary wrapped object, as the source allows (`self.obj` is whatever was
passed at construction — at line 134 it is a list).  `dflt = none` models the
`Missing` sentinel.  Order of effects is Python's: `self.obj.pop(key,
default)` first mutates the mapping, then the `Missing` check, then the
`isinstance` check — which is applied to the returned value even when it is
the supplied default.  The (possibly mutated) object is returned alongside
the result so that failures expose the mutation.  On a list, `list.pop` only
accepts an integer index, so the call raises `TypeError`; other objects have
no `pop` attribute. -/
def mu_pop (ctxt key : LC) (typ : Kind) (dflt : Option Json) (obj : Json) :
    Except Err Json × Json :=
  match obj with
  | .obj fields =>
    match jlookup fields key with
    | some v =>
      let rest := Json.obj (jremove fields key)
      if isinst v typ then (.ok v, rest) else (.error (.typeMismatch ctxt key), rest)
    | none =>
      match dflt with
      | none => (.error (.missingField ctxt key), obj)
      | some d =>
        if isinst d typ then (.ok d, obj) else (.error (.typeMismatch ctxt key), obj)
  | .arr _ => (.error .listPopArgs, obj)
  | _ => (.error .noPopAttr, obj)

/-- `MessageUnpacker.__exit__` (disas.py lines 58-60): if the wrapped object
is truthy, raise `ValueError` naming the leftover keys.  Formatting the
message iterates the object and `', '.join(...)`s the items: over a dict this
joins the keys, over a list it needs every item to be a string, over a string
it joins the characters, and a non-container cannot be iterated at all. -/
def mu_exit (ctxt : LC) (obj : Json) : Except Err Unit :=
  if truthy obj then
    match obj with
    | .obj fields => .error (.unknownKeys ctxt (jkeys fields))
    | .arr items =>
      if items.all (fun v => match v with | .str _ => true | _ => false) then
        .error (.unknownKeys ctxt (items.map (fun v => match v with | .str s => s | _ => [])))
      else .error .joinNonStr
    | .str s => .error (.unknownKeys ctxt (s.map (fun c => [c])))
    | _ => .error .notIterable
  else .ok ()

/-- The body of one `with MessageUnpacker(...)` block: a computation that
mutates the wrapped object and may raise. -/
def MuM (α : Type) := Json → Except Err α × Json

instance : Monad MuM where
  pure a := fun obj => (.ok a, obj)
  bind x f := fun obj =>
    match x obj with
    | (.ok a, obj2) => f a obj2
    | (.error e, obj2) => (.error e, obj2)

/-- A `u.pop(key, typ, default)` call inside a `with` block. -/
def mpop (ctxt key : LC) (typ : Kind) (dflt : Option Json) : MuM Json :=
  fun obj => mu_pop ctxt key typ dflt obj

/-- Run a `with MessageUnpacker(ctxt, obj) as u:` block: execute the body,
then `__exit__`.  Python calls `__exit__` even when the body raised, and
`MessageUnpacker.__exit__` ignores the exception arguments, so an error it
raises replaces the body's error. -/
def runMU {α : Type} (ctxt : LC) (obj : Json) (body : MuM α) : Except Err α :=
  let p := body obj
  match mu_exit ctxt p.2 with
  | .error e => .error e
  | .ok _ => p.1

/-- `OneOfMessageUnpacker.__init__` (disas.py lines 64-69): `len(obj)` must be
exactly 1, then `next(iter(obj.items()))` yields the tag and payload.
`len()` raises `TypeError` on a non-container; `.items()` only exists on a
mapping. -/
def oneofUnpack (ctxt : LC) (obj : Json) : Except Err (LC × Json) :=
  match obj with
  | .obj fields =>
    match fields with
    | [(k, v)] => .ok (k, v)
    | _ => .error (.malformedOneof ctxt)
  | .arr items =>
    if items.length = 1 then .error .noItemsAttr else .error (.malformedOneof ctxt)
  | .str s =>
    if s.length = 1 then .error .noItemsAttr else .error (.malformedOneof ctxt)
  | _ => .error .notIterable

/-- An anchor-to-symbol lookup table: a Python dict with `int` keys.  A bool
anchor hashes and compares equal to its integer value (`True == 1`), so keys
are stored as integers. -/
def tget : List (Int × LC) → Int → Option LC
  | [], _ => none
  | (k, v) :: rest, key => if k = key then some v else tget rest key

/-- `table[anchor] = ref`: update in place if present, else append. -/
def tset : List (Int × LC) → Int → LC → List (Int × LC)
  | [], key, val => [(key, val)]
  | (k, v) :: rest, key, val =>
    if k = key then (k, val) :: rest else (k, v) :: tset rest key val

/-- `isinstance(v, int)` paired with Python's integer value of the object
(`True == 1`, `False == 0`). -/
def jintVal : Json → Option Int
  | .int n => some n
  | .bool b => some (if b then 1 else 0)
  | _ => none

/-- Python `str(v)` / f-string rendering for the scalar values it is applied
to in `disas` (anchors and references, which passed `isinstance(·, int)`, so
only the `int` and `bool` cases are ever reached). -/
def pyStr : Json → LC
  | .int n => intRepr n
  | .bool b => if b then lc ("True") else lc ("False")
  | .null => lc ("None")
  | .str s => s
  | _ => []

/-- Lower-case hexadecimal digit (for `json.dumps` escapes). -/
def hexDigL (d : Nat) : Nat := if d < 10 then 48 + d else 87 + d

/-- Four lower-case hex digits of a 16-bit value. -/
def toHex4L (n : Nat) : LC :=
  [hexDigL (n / 4096 % 16), hexDigL (n / 256 % 16), hexDigL (n / 16 % 16), hexDigL (n % 16)]

/-- `json.dumps` escaping of one character (`ensure_ascii=True` default):
quote and backslash get short escapes, as do the five control characters
with short forms; other characters below 0x20 or above 0x7E become `\uxxxx`
(lower-case), astral code points as a surrogate pair. -/
def jescChar (c : Nat) : LC :=
  if c = 34 then [92, 34]
  else if c = 92 then [92, 92]
  else if c = 8 then [92, 98]
  else if c = 12 then [92, 102]
  else if c = 10 then [92, 110]
  else if c = 13 then [92, 114]
  else if c = 9 then [92, 116]
  else if 32 ≤ c ∧ c ≤ 126 then [c]
  else if c ≤ 65535 then 92 :: 117 :: toHex4L c
  else
    92 :: 117 :: toHex4L (55296 + (c - 65536) / 1024) ++
      92 :: 117 :: toHex4L (56320 + (c - 65536) % 1024)

/-- `json.dumps` rendering of a string. -/
def jstr (s : LC) : LC := 34 :: (s.map jescChar).flatten ++ [34]

mutual
/-- Compact `json.dumps(node)` with the default separators `', '` and `': '`,
as called for leaves at disas.py line 262. -/
def jdumps : Json → LC
  | .null => lc ("null")
  | .bool b => if b then lc ("true") else lc ("false")
  | .int n => intRepr n
  | .str s => jstr s
  | .arr items =>
    match items with
    | [] => lc ("[]")
    | _ => 91 :: jdumpsItems items ++ [93]
  | .obj fields =>
    match fields with
    | [] => lc ("\x7b\x7d")
    | _ => 123 :: jdumpsFields fields ++ [125]
def jdumpsItems : List Json → LC
  | [] => []
  | [v] => jdumps v
  | v :: rest => jdumps v ++ lc (", ") ++ jdumpsItems rest
def jdumpsFields : List (LC × Json) → LC
  | [] => []
  | [(k, v)] => jstr k ++ lc (": ") ++ jdumps v
  | (k, v) :: rest => jstr k ++ lc (": ") ++ jdumps v ++ lc (", ") ++ jdumpsFields rest
end

/-- A run of spaces. -/
def spaces : Nat → LC
  | 0 => []
  | n + 1 => 32 :: spaces n

mutual
/-- `json.dumps(node, indent=2)` (disas.py lines 197 and 200): containers
break onto indented lines; empty containers stay on one line. -/
def jdumpInd (lvl : Nat) : Json → LC
  | .arr items =>
    match items with
    | [] => lc ("[]")
    | _ => 91 :: jdumpIndItems lvl items ++ 10 :: spaces (2 * lvl) ++ [93]
  | .obj fields =>
    match fields with
    | [] => lc ("\x7b\x7d")
    | _ => 123 :: jdumpIndFields lvl fields ++ 10 :: spaces (2 * lvl) ++ [125]
  | v => jdumps v
def jdumpIndItems (lvl : Nat) : List Json → LC
  | [] => []
  | [v] => 10 :: spaces (2 * (lvl + 1)) ++ jdumpInd (lvl + 1) v
  | v :: rest =>
    10 :: spaces (2 * (lvl + 1)) ++ jdumpInd (lvl + 1) v ++ 44 :: jdumpIndItems lvl rest
def jdumpIndFields (lvl : Nat) : List (LC × Json) → LC
  | [] => []
  | [(k, v)] => 10 :: spaces (2 * (lvl + 1)) ++ jstr k ++ lc (": ") ++ jdumpInd (lvl + 1) v
  | (k, v) :: rest =>
    10 :: spaces (2 * (lvl + 1)) ++ jstr k ++ lc (": ") ++ jdumpInd (lvl + 1) v ++
      44 :: jdumpIndFields lvl rest
end

/-- The four anchor-to-symbol lookup tables (disas.py lines 127-130). -/
structure Tables where
  uriL : List (Int × LC)
  typL : List (Int × LC)
  tvL : List (Int × LC)
  fnL : List (Int × LC)

/-- The run-scoped mutable state of one `disas` run: the issued-name set
(`used_names`, line 106) and the output accumulator (`output`, line 123). -/
structure St where
  used : List LC
  output : List LC

/-- `isinstance(v, dict)`. -/
def isObjJ : Json → Bool
  | .obj _ => true
  | _ => false

/-- The value stored under `'input'` in the per-key behavior table
(disas.py line 231): `next(iter(val)) if isinstance(val, dict) and val else
'unknown'` — the FIRST top-level key when `val` is a non-empty dict, else the
string `"unknown"`. -/
def input_hint : Json → LC
  | .obj ((k, _) :: _) => k
  | _ => lc ("unknown")

/-- The statement text of a `raw` binding: lines 241 and 265 share the format
`raw {ref} = {text};\n\n`. -/
def rawStmt (ref text : LC) : LC :=
  lc ("raw ") ++ ref ++ lc (" = ") ++ text ++ lc (";\n\n")

/-- Textual occurrence: `sym` appears contiguously inside `t`.  Used to state
that a statement references a hoisted symbol. -/
def occursIn (sym t : LC) : Prop := ∃ a b, t = a ++ sym ++ b

/-- Every statement in the list is a `raw` binding whose symbol occurs
textually either in a LATER statement of the list or in the final text `t`
(which is emitted after the whole list).  This is the order invariant of the
hoisting machinery: a binding always precedes the statement that references
its symbol. -/
def HoistOK : List LC → LC → Prop
  | [], _ => True
  | s :: rest, t =>
    (∃ sym sub, s = rawStmt sym sub ∧ (occursIn sym t ∨ ∃ r ∈ rest, occursIn sym r)) ∧
    HoistOK rest t

mutual
/-- Structural size of a JSON tree, for the induction measure of the
serializer proofs. -/
def jsize : Json → Nat
  | .null => 1
  | .bool _ => 1
  | .int _ => 1
  | .str _ => 1
  | .arr items => jsizeL items + 1
  | .obj fields => jsizeF fields + 1
def jsizeL : List Json → Nat
  | [] => 0
  | j :: r => jsize j + jsizeL r + 1
def jsizeF : List (LC × Json) → Nat
  | [] => 0
  | (_, j) :: r => jsize j + jsizeF r + 1
end

mutual
/-- `dfs_helper(node, indent)` (disas.py lines 205-262).  `lk` are the four
lookup tables and `ref` the current declaration name, both captured from the
enclosing `emit_raw_json` closure; the run state `st` is threaded through.
Returns the rendered text and the updated state. -/
def dfs_helper (lk : Tables) (ref : LC) (node : Json) (indent : LC) (st : St) : LC × St :=
  match node with
  | .obj fields =>
    let p := dfs_fields lk ref indent fields true st
    (123 :: p.1 ++ 10 :: indent ++ [125], p.2)
  | .arr items =>
    let p := dfs_items lk ref indent items true st
    (91 :: p.1 ++ 10 :: indent ++ [93], p.2)
  | leaf => (jdumps leaf, st)

/-- The `for key, val in node.items()` loop of `dfs_helper` (lines 208-244)
with its `first` comma flag: per-key behavior is decided before recursing.
Extension-reference keys with an `int` value substitute the looked-up symbol
(decimal fallback); an `input` key with a dict value hoists the subtree into
a fresh `raw` binding and substitutes the bare symbol; everything else
recurses with increased indentation. -/
def dfs_fields (lk : Tables) (ref indent : LC) :
    List (LC × Json) → Bool → St → LC × St
  | [], _, st => ([], st)
  | (key, val) :: rest, first, st =>
    let head :=
      (if first then [] else [44]) ++ 10 :: indent ++ lc ("  ") ++ make_string key ++ lc (": ")
    if (key = lc ("functionReference") ∨ key = lc ("comparisonFunctionReference")) ∧
        (jintVal val).isSome then
      let frag := (tget lk.fnL ((jintVal val).getD 0)).getD (pyStr val)
      let q := dfs_fields lk ref indent rest false st
      (head ++ frag ++ q.1, q.2)
    else if key = lc ("userDefinedTypeReference") ∧ (jintVal val).isSome then
      let frag := (tget lk.typL ((jintVal val).getD 0)).getD (pyStr val)
      let q := dfs_fields lk ref indent rest false st
      (head ++ frag ++ q.1, q.2)
    else if key = lc ("typeVariationReference") ∧ (jintVal val).isSome then
      let frag := (tget lk.tvL ((jintVal val).getD 0)).getD (pyStr val)
      let q := dfs_fields lk ref indent rest false st
      (head ++ frag ++ q.1, q.2)
    else if key = lc ("input") ∧ isObjJ val then
      let p := dfs_helper lk ref val [] st
      let u := uniquify p.2.used (make_ident [ref, input_hint val])
      let st2 : St := ⟨u.2, p.2.output ++ [rawStmt u.1 p.1]⟩
      let q := dfs_fields lk ref indent rest false st2
      (head ++ u.1 ++ q.1, q.2)
    else
      let p := dfs_helper lk ref val (indent ++ lc ("  ")) st
      let q := dfs_fields lk ref indent rest false p.2
      (head ++ p.1 ++ q.1, q.2)

/-- The `elif isinstance(node, list)` loop of `dfs_helper` (lines 248-259). -/
def dfs_items (lk : Tables) (ref indent : LC) : List Json → Bool → St → LC × St
  | [], _, st => ([], st)
  | v :: rest, first, st =>
    let head := (if first then [] else [44]) ++ 10 :: indent ++ lc ("  ")
    let p := dfs_helper lk ref v (indent ++ lc ("  ")) st
    let q := dfs_items lk ref indent rest false p.2
    (head ++ p.1 ++ q.1, q.2)
end

/-- `emit_raw_json(ref, data)` (disas.py lines 204-265): render the tree and
append the enclosing `raw` binding after the hoisted ones. -/
def emit_raw_json (lk : Tables) (ref : LC) (data : Json) (st : St) : St :=
  let p := dfs_helper lk ref data [] st
  ⟨p.2.used, p.2.output ++ [rawStmt ref p.1]⟩

/-- One iteration of the `extensionUris` loop (disas.py lines 133-142).
NOTE the source slip this embeds faithfully: line 134 constructs
`MessageUnpacker('extensionUriAnchor', extension_uris)` over the whole LIST
rather than the loop's `extension_uri` entry (which is never used), so the
first `u.pop` raises `TypeError` from `list.pop` whenever the loop body runs,
and `__exit__` then raises while formatting its message.  The statements of
lines 137-142 are embedded all the same. -/
def uriStep (allUris : Json) (tbl : List (Int × LC)) (st : St) :
    Except Err (List (Int × LC) × St) :=
  match runMU (lc ("extensionUriAnchor")) allUris (do
      let anchor ← mpop (lc ("extensionUriAnchor")) (lc ("extensionUriAnchor")) Kind.kint
        (some (Json.int 0))
      let uri ← mpop (lc ("extensionUriAnchor")) (lc ("uri")) Kind.kstr none
      pure (anchor, uri)) with
  | .error e => .error e
  | .ok (anchor, uri) =>
    match jintVal anchor with
    | none => .error (.illegalAnchor (lc ("URI")) (pyStr anchor))
    | some a =>
      if a < 0 then .error (.illegalAnchor (lc ("URI")) (pyStr anchor))
      else
        let uriS := match uri with | .str s => s | _ => []
        let seg := (uriS.reverse.takeWhile (fun c => c ≠ 47)).reverse.takeWhile (fun c => c ≠ 46)
        let u := uniquify st.used (make_ident [lc ("uri"), seg])
        let stmt :=
          lc ("using ") ++ u.1 ++ lc (" = ") ++ make_string uriS ++ lc (" = ") ++
            pyStr anchor ++ lc (";\n")
        .ok (tset tbl a u.1, ⟨u.2, st.output ++ [stmt]⟩)

/-- The `for extension_uri in extension_uris:` loop (lines 133-142); the body
ignores the entry (see `uriStep`). -/
def uriLoop (allUris : Json) : List Json → List (Int × LC) → St →
    Except Err (List (Int × LC) × St)
  | [], tbl, st => .ok (tbl, st)
  | _entry :: rest, tbl, st =>
    match uriStep allUris tbl st with
    | .error e => .error e
    | .ok p => uriLoop allUris rest p.1 p.2

/-- Which lookup table an extension variant populates. -/
inductive ExtSel where
  | fn
  | typ
  | tv
deriving DecidableEq

/-- The shared tail of the three `extensions` variants (disas.py lines
147-188): unpack `{extensionUriReference, <anchor-field>, name}` in a `with`
block, validate the anchor, map the four operator names for the symbol only,
uniquify `prefix_name`, resolve the URI qualifier through the URI table
(raw integer fallback, omitted when the reference is 0), quote the declared
name unless it is a valid identifier, emit the declaration, and record the
anchor in the selected table. -/
def extBranch (tables : Tables) (st : St) (val : Json)
    (ctxt anchorField decl pfx : LC) (sel : ExtSel) : Except Err (Tables × St) :=
  match runMU ctxt val (do
      let uriRef ← mpop ctxt (lc ("extensionUriReference")) Kind.kint (some (Json.int 0))
      let anchor ← mpop ctxt anchorField Kind.kint (some (Json.int 0))
      let name ← mpop ctxt (lc ("name")) Kind.kstr none
      pure (uriRef, anchor, name)) with
  | .error e => .error e
  | .ok (uriRef, anchor, name) =>
    match jintVal anchor with
    | none => .error (.illegalAnchor decl (pyStr anchor))
    | some a =>
      if a < 0 then .error (.illegalAnchor decl (pyStr anchor))
      else
        let nameS := match name with | .str s => s | _ => []
        let refName :=
          if nameS = lc ("+") then lc ("add")
          else if nameS = lc ("-") then lc ("sub")
          else if nameS = lc ("*") then lc ("mult")
          else if nameS = lc ("/") then lc ("div")
          else nameS
        let u := uniquify st.used (make_ident [pfx, refName])
        let uriPart :=
          match jintVal uriRef with
          | some ur =>
            if ur = 0 then []
            else (tget tables.uriL ur).getD (pyStr uriRef) ++ lc ("::")
          | none => []
        let nameOut := if is_ident nameS then nameS else make_string nameS
        let stmt :=
          decl ++ [32] ++ u.1 ++ lc (" = ") ++ uriPart ++ nameOut ++ lc (" = ") ++
            pyStr anchor ++ lc (";\n")
        let tables2 :=
          match sel with
          | .fn => Tables.mk tables.uriL tables.typL tables.tvL (tset tables.fnL a u.1)
          | .typ => Tables.mk tables.uriL (tset tables.typL a u.1) tables.tvL tables.fnL
          | .tv => Tables.mk tables.uriL tables.typL (tset tables.tvL a u.1) tables.fnL
        .ok (tables2, ⟨u.2, st.output ++ [stmt]⟩)

/-- One iteration of the `extensions` loop (disas.py lines 145-188): a oneof
over the three variants; an unhandled tag is reported as `UnknownVariant` by
`OneOfMessageUnpacker.__exit__` (the body's `UnboundLocalError` would be
replaced by it).  Note line 164: the `extensionTypeVariation` branch reuses
the context label `'type extension'`. -/
def extStep (tables : Tables) (st : St) (ext : Json) : Except Err (Tables × St) :=
  match oneofUnpack (lc ("extension")) ext with
  | .error e => .error e
  | .ok (tag, val) =>
    if tag = lc ("extensionFunction") then
      extBranch tables st val (lc ("function extension")) (lc ("functionAnchor"))
        (lc ("function")) (lc ("fn")) ExtSel.fn
    else if tag = lc ("extensionType") then
      extBranch tables st val (lc ("type extension")) (lc ("typeAnchor"))
        (lc ("type")) (lc ("typ")) ExtSel.typ
    else if tag = lc ("extensionTypeVariation") then
      extBranch tables st val (lc ("type extension")) (lc ("typeVariationAnchor"))
        (lc ("type_variation")) (lc ("tv")) ExtSel.tv
    else .error (.unknownVariant (lc ("extension")) tag)

/-- The `for extension in extensions:` loop (lines 145-188). -/
def extLoop : List Json → Tables → St → Except Err (Tables × St)
  | [], tables, st => .ok (tables, st)
  | e :: rest, tables, st =>
    match extStep tables st e with
    | .error er => .error er
    | .ok p => extLoop rest p.1 p.2

/-- The `for expected_type_url in expected_type_urls:` loop (lines 193-195).
`make_string` iterates its argument's characters, so a non-string entry
raises `TypeError`. -/
def protoUrls : List Json → St → Except Err St
  | [], st => .ok st
  | u :: rest, st =>
    match u with
    | .str s =>
      protoUrls rest ⟨st.used, st.output ++ [lc ("proto_extension ") ++ make_string s ++ lc (";\n")]⟩
    | _ => .error .notIterable

/-- The body of the `with MessageUnpacker('relation root', u.val)` block of
the `root` branch (disas.py lines 271-279): pop `input` — with expected type
`int` as the source writes — and `names`, check every name is a string, and
format the quoted name list. -/
def rootBody (obj : Json) : Except Err (Json × LC) × Json :=
  match mu_pop (lc ("relation root")) (lc ("input")) Kind.kint (some (Json.int 0)) obj with
  | (.error e, o) => (.error e, o)
  | (.ok rel, o) =>
    match mu_pop (lc ("relation root")) (lc ("names")) Kind.klist (some (Json.int 0)) o with
    | (.error e, o2) => (.error e, o2)
    | (.ok names, o2) =>
      let namesL := match names with | .arr l => l | _ => []
      if namesL.all (fun v => match v with | .str _ => true | _ => false) then
        let quoted := namesL.map (fun v => make_string (match v with | .str s => s | _ => []))
        ((.ok (rel, 40 :: List.intercalate (lc (", ")) quoted ++ [41])), o2)
      else (.error .invalidElementType, o2)

/-- One iteration of the relations loop (disas.py lines 267-287).  In the
`root` branch, after the `with` block, line 280 calls the undefined helper
`emit_rels`, so the branch always raises (`NameError` if the unpacking
succeeded).  In the `rel` branch the payload is the tree and the name list is
empty; the `rel_<index>` symbol is allocated, the tree serialized and the
`execute` statement appended.  An unmatched tag raises `UnknownVariant` at
`__exit__` (replacing the body's `UnboundLocalError` on `rel`). -/
def relStep (lk : Tables) (index : Nat) (relation : Json) (st : St) : Except Err St :=
  let st1 : St := ⟨st.used, st.output ++ [lc ("\n// Relation ") ++ decRepr index ++ lc ("\n")]⟩
  match oneofUnpack (lc ("relation root")) relation with
  | .error e => .error e
  | .ok (tag, val) =>
    if tag = lc ("root") then
      match runMU (lc ("relation root")) val rootBody with
      | .error e => .error e
      | .ok _ => .error (.nameErr (lc ("emit_rels")))
    else if tag = lc ("rel") then
      let u := uniquify st1.used (make_ident [lc ("rel"), decRepr index])
      let st2 := emit_raw_json lk u.1 val ⟨u.2, st1.output⟩
      .ok ⟨st2.used, st2.output ++ [lc ("execute ") ++ u.1 ++ lc (";\n")]⟩
    else .error (.unknownVariant (lc ("relation root")) tag)

/-- The `for index, relation in enumerate(relations):` loop (lines 267-287). -/
def relLoop (lk : Tables) : List Json → Nat → St → Except Err St
  | [], _, st => .ok st
  | r :: rest, index, st =>
    match relStep lk index r st with
    | .error e => .error e
    | .ok st2 => relLoop lk rest (index + 1) st2

/-- `disas` (disas.py lines 85-290) on the decoded plan (JSON decoding is the
external collaborator, spec §6).  Unpacks the top level and the advanced
extensions, emits extension declarations, protobuf-level extensions and the
relations, and joins the accumulated statements. -/
def disas (plan : Json) : Except Err LC :=
  match runMU (lc ("plan")) plan (do
      let eu ← mpop (lc ("plan")) (lc ("extensionUris")) Kind.klist (some (Json.arr []))
      let ex ← mpop (lc ("plan")) (lc ("extensions")) Kind.klist (some (Json.arr []))
      let rels ← mpop (lc ("plan")) (lc ("relations")) Kind.klist (some (Json.arr []))
      let adv ← mpop (lc ("plan")) (lc ("advancedExtensions")) Kind.kdict (some (Json.obj []))
      let etu ← mpop (lc ("plan")) (lc ("expectedTypeUrls")) Kind.klist (some (Json.arr []))
      pure (eu, ex, rels, adv, etu)) with
  | .error e => .error e
  | .ok (eu, ex, rels, adv, etu) =>
    match runMU (lc ("toplevel advanced extension object")) adv (do
        let enh ← mpop (lc ("toplevel advanced extension object")) (lc ("enhancement"))
          Kind.kdict (some (Json.obj []))
        let opt ← mpop (lc ("toplevel advanced extension object")) (lc ("optimization"))
          Kind.kdict (some (Json.obj []))
        pure (enh, opt)) with
    | .error e => .error e
    | .ok (enh, opt) =>
      let st0 : St := ⟨[], []⟩
      let afterExt : Except Err (Tables × St) :=
        if truthy eu || truthy ex then
          let st1 : St := ⟨st0.used, st0.output ++ [lc ("\n// Type/function extensions\n")]⟩
          let euItems := match eu with | .arr l => l | _ => []
          match uriLoop eu euItems [] st1 with
          | .error e => .error e
          | .ok p =>
            let st3 := if truthy eu then St.mk p.2.used (p.2.output ++ [lc ("\n")]) else p.2
            let exItems := match ex with | .arr l => l | _ => []
            extLoop exItems (Tables.mk p.1 [] [] []) st3
        else .ok (Tables.mk [] [] [] [], st0)
      match afterExt with
      | .error e => .error e
      | .ok (tables, stA) =>
        let afterProto : Except Err St :=
          if truthy enh || truthy opt || truthy etu then
            let stB : St := ⟨stA.used, stA.output ++ [lc ("\n// Protobuf extensions\n")]⟩
            let etuItems := match etu with | .arr l => l | _ => []
            match protoUrls etuItems stB with
            | .error e => .error e
            | .ok stC =>
              let stD :=
                if truthy enh then
                  St.mk stC.used (stC.output ++ [lc ("enhancement ") ++ jdumpInd 0 enh ++ lc (";\n")])
                else stC
              let stE :=
                if truthy opt then
                  St.mk stD.used (stD.output ++ [lc ("optimization ") ++ jdumpInd 0 opt ++ lc (";\n")])
                else stD
              .ok stE
          else .ok stA
        match afterProto with
        | .error e => .error e
        | .ok stF =>
          let relItems := match rels with | .arr l => l | _ => []
          match relLoop tables relItems 0 stF with
          | .error e => .error e
          | .ok stG => .ok stG.output.flatten

/-- Removing a key that is present shortens the mapping by exactly one entry. -/
theorem jremove_length (fields : List (LC × Json)) (key : LC) (v : Json)
    (hfind : jlookup fields key = some v) :
    (jremove fields key).length + 1 = fields.length := by
  induction fields with
  | nil => simp [jlookup] at hfind
  | cons f rest ih =>
    obtain ⟨k, w⟩ := f
    by_cases hk : k = key
    · simp [jremove, hk]
    · simp only [jlookup, hk, if_false, if_neg hk] at hfind ⊢
      simp [jremove, hk, ih hfind]

/-- C9: when `MessageUnpacker.pop` finds the key but the value is of the wrong
kind, the key/value pair is removed from the underlying mapping before the
type-mismatch error is raised: the call returns the error together with the
mapping minus that entry (one entry shorter), so the failure is not atomic
with respect to the mapping state. -/
theorem thm_C9 (ctxt key : LC) (typ : Kind) (dflt : Option Json)
    (fields : List (LC × Json)) (v : Json)
    (hfind : jlookup fields key = some v) (hbad : isinst v typ = false) :
    mu_pop ctxt key typ dflt (Json.obj fields) =
      (.error (.typeMismatch ctxt key), Json.obj (jremove fields key)) ∧
    (jremove fields key).length + 1 = fields.length := by
  constructor
  · simp [mu_pop, hfind, hbad]
  · exact jremove_length fields key v hfind

/-- Witness for C9 at a concrete mapping: popping `a` as an `int` when it
holds a string fails, yet the entry is gone from the returned mapping. -/
theorem thm_C9_witness :
    mu_pop (lc ("ctx")) (lc ("a")) Kind.kint none
        (Json.obj [(lc ("a"), Json.str (lc ("x")))]) =
      (.error (.typeMismatch (lc ("ctx")) (lc ("a"))),
        Json.obj (jremove [(lc ("a"), Json.str (lc ("x")))] (lc ("a")))) ∧
    (jremove [(lc ("a"), Json.str (lc ("x")))] (lc ("a"))).length + 1 =
      [(lc ("a"), Json.str (lc ("x")))].length :=
  thm_C9 (lc ("ctx")) (lc ("a")) Kind.kint none
    [(lc ("a"), Json.str (lc ("x")))] (Json.str (lc ("x"))) rfl rfl

/-- C10: `MessageUnpacker.pop` accepts booleans where the `int` kind is
expected — Python's `bool` is a subclass of `int`, so `isinstance` passes and
`pop(key, int)` returns the boolean successfully. -/
theorem thm_C10 (ctxt key : LC) (dflt : Option Json)
    (fields : List (LC × Json)) (b : Bool)
    (hfind : jlookup fields key = some (Json.bool b)) :
    isinst (Json.bool b) Kind.kint = true ∧
    mu_pop ctxt key Kind.kint dflt (Json.obj fields) =
      (.ok (Json.bool b), Json.obj (jremove fields key)) := by
  refine ⟨rfl, ?_⟩
  simp [mu_pop, hfind, isinst]

/-- Witness for C10: popping a `true` anchor with the `int` kind succeeds. -/
theorem thm_C10_witness :
    isinst (Json.bool true) Kind.kint = true ∧
    mu_pop (lc ("ctx")) (lc ("functionAnchor")) Kind.kint none
        (Json.obj [(lc ("functionAnchor"), Json.bool true)]) =
      (.ok (Json.bool true),
        Json.obj (jremove [(lc ("functionAnchor"), Json.bool true)] (lc ("functionAnchor")))) :=
  thm_C10 (lc ("ctx")) (lc ("functionAnchor")) none
    [(lc ("functionAnchor"), Json.bool true)] true rfl

/-- Counterexample to C5 as stated: the exact call the source makes at line
273 — key absent, default `0` supplied, expected kind `list` — raises the
type-mismatch error instead of returning the default, because `pop` applies
the `isinstance` check to the returned value even when it is the default. -/
theorem thm_C5_cex :
    mu_pop (lc ("relation root")) (lc ("names")) Kind.klist (some (Json.int 0)) (Json.obj []) =
      (.error (.typeMismatch (lc ("relation root")) (lc ("names"))), Json.obj []) := rfl

/-- C5 (amended): with the key absent and a default supplied, `pop` leaves the
mapping unchanged and returns the default — but only when the default itself
matches the expected kind; a default of the wrong kind raises the
type-mismatch error (mapping still unchanged). -/
theorem thm_C5 (ctxt key : LC) (typ : Kind) (dflt : Json) (fields : List (LC × Json))
    (habs : jlookup fields key = none) :
    (isinst dflt typ = true →
      mu_pop ctxt key typ (some dflt) (Json.obj fields) = (.ok dflt, Json.obj fields)) ∧
    (isinst dflt typ = false →
      mu_pop ctxt key typ (some dflt) (Json.obj fields) =
        (.error (.typeMismatch ctxt key), Json.obj fields)) := by
  constructor <;> intro h <;> simp [mu_pop, habs, h]

/-- Witness for C5 (amended): an absent key with a matching default returns
the default and leaves the mapping unchanged. -/
theorem thm_C5_witness :
    mu_pop (lc ("c")) (lc ("k")) Kind.klist (some (Json.arr [])) (Json.obj []) =
      (.ok (Json.arr []), Json.obj []) :=
  (thm_C5 (lc ("c")) (lc ("k")) Kind.klist (Json.arr []) [] rfl).1 rfl

/-- C1 is a code bug: for a plan with a non-empty `extensionUris` list the
code never unpacks any entry.  Line 134 passes the whole list (not the loop
entry) to `MessageUnpacker`, so the first `pop` raises `TypeError` from
`list.pop`, and `__exit__` then raises a second `TypeError` while joining the
non-string leftover items into its message.  Evaluating the embedded `disas`
at such a plan yields that error instead of any `using` statement. -/
theorem thm_C1_code_bug :
    disas (Json.obj [(lc ("extensionUris"), Json.arr [Json.obj
      [(lc ("extensionUriAnchor"), Json.int 0),
       (lc ("uri"), Json.str (lc ("http://example.com/foo.yaml")))]])]) =
      .error Err.joinNonStr := rfl

/-- C2 is a code bug: the `root` branch can never emit anything.  Line 272
pops `input` with expected type `int`, so a mapping input raises the
type-mismatch error (and `__exit__` then reports the leftover `names` key);
and even when the unpacking succeeds, line 280 calls the undefined helper
`emit_rels`, raising `NameError`.  Both failure modes evaluated on concrete
plans. -/
theorem thm_C2_code_bug :
    disas (Json.obj [(lc ("relations"), Json.arr [Json.obj [(lc ("root"), Json.obj
        [(lc ("input"), Json.obj [(lc ("read"), Json.obj [])]),
         (lc ("names"), Json.arr [Json.str (lc ("a"))])])]])]) =
      .error (.unknownKeys (lc ("relation root")) [lc ("names")]) ∧
    disas (Json.obj [(lc ("relations"), Json.arr [Json.obj [(lc ("root"), Json.obj
        [(lc ("names"), Json.arr [Json.str (lc ("a"))])])]])]) =
      .error (.nameErr (lc ("emit_rels"))) :=
  ⟨rfl, rfl⟩

/-- Counterexample to C4 as stated: under an `input` key holding a TWO-key
mapping, the hoisted symbol is derived from the mapping's FIRST key (`a`),
not from `"unknown"` as the claim requires for a non-single-keyed mapping. -/
theorem thm_C4_cex :
    (dfs_helper (Tables.mk [] [] [] []) (lc ("r"))
        (Json.obj [(lc ("input"),
          Json.obj [(lc ("a"), Json.null), (lc ("b"), Json.null)])])
        [] (St.mk [] [])).2.output =
      [rawStmt (lc ("r_a")) (lc ("\x7b\n  \"a\": null,\n  \"b\": null\n\x7d"))] ∧
    make_ident [lc ("r"), lc ("unknown")] = lc ("r_unknown") ∧
    lc ("r_a") ≠ lc ("r_unknown") :=
  ⟨rfl, rfl, by decide⟩

/-- C4 (amended): for a mapping value `v` under an `input` key, the hoisted
binding's symbol is derived from the current declaration name together with
`v`'s FIRST top-level key whenever `v` is non-empty (however many keys it
has), and from `"unknown"` exactly when `v` is empty; the hoisted statement
is appended right after the statements emitted while rendering `v`. -/
theorem thm_C4 (lk : Tables) (ref indent : LC) (st : St) (ff : List (LC × Json))
    (k : LC) (w : Json) (r : List (LC × Json)) :
    (dfs_helper lk ref (Json.obj [(lc ("input"), Json.obj ff)]) indent st).2.output =
      (dfs_helper lk ref (Json.obj ff) [] st).2.output ++
        [rawStmt
          (uniquify (dfs_helper lk ref (Json.obj ff) [] st).2.used
            (make_ident [ref, input_hint (Json.obj ff)])).1
          (dfs_helper lk ref (Json.obj ff) [] st).1] ∧
    input_hint (Json.obj ((k, w) :: r)) = k ∧
    input_hint (Json.obj []) = lc ("unknown") :=
  ⟨rfl, rfl, rfl⟩

/-- A hex digit rendered by `toHex4` parses back to its value. -/
theorem hexValU_hexDigU : ∀ d, d < 16 → hexValU (hexDigU d) = some d := by decide

/-- A backslash hands the rest of the input to the escape parser. -/
theorem unesc_cons92 (r : LC) : unescapeContents (92 :: r) = unescEscape r := by
  simp [unescapeContents]

/-- A non-backslash character un-escapes to itself. -/
theorem unesc_verbatim (c : Nat) (hne : c ≠ 92) (r : LC) :
    unescapeContents (c :: r) = (unescapeContents r).map (fun t => c :: t) := by
  simp [unescapeContents, hne]

/-- A `\uXXXX` sequence produced by `toHex4` un-escapes to its code point. -/
theorem unesc_hex (c : Nat) (hc : c ≤ 65535) (r : LC) :
    unescapeContents (92 :: 117 :: toHex4 c ++ r) =
      (unescapeContents r).map (fun t => c :: t) := by
  have h1 := hexValU_hexDigU (c / 4096 % 16) (Nat.mod_lt _ (by norm_num))
  have h2 := hexValU_hexDigU (c / 256 % 16) (Nat.mod_lt _ (by norm_num))
  have h3 := hexValU_hexDigU (c / 16 % 16) (Nat.mod_lt _ (by norm_num))
  have h4 := hexValU_hexDigU (c % 16) (Nat.mod_lt _ (by norm_num))
  have hval : 4096 * (c / 4096 % 16) + 256 * (c / 256 % 16) + 16 * (c / 16 % 16) + c % 16 = c := by
    omega
  simp only [toHex4, List.cons_append, List.nil_append]
  rw [unesc_cons92]
  simp [unescEscape, unescHex4, h1, h2, h3, h4, hval]

/-- Un-escaping inverts `escapeChar` for every non-backslash character. -/
theorem unesc_escape_cons (c : Nat) (hne : c ≠ 92) (r : LC) :
    unescapeContents (escapeChar c ++ r) = (unescapeContents r).map (fun t => c :: t) := by
  by_cases hv : (32 ≤ c ∧ c ≤ 126) ∨ c > 65535
  · rw [escapeChar, if_pos hv, List.cons_append, List.nil_append, unesc_verbatim c hne]
  · by_cases h8 : c = 8
    · subst h8
      rw [escapeChar]
      norm_num
      rw [unesc_cons92]
      simp [unescEscape]
    · by_cases h12 : c = 12
      · subst h12
        rw [escapeChar]
        norm_num
        rw [unesc_cons92]
        simp [unescEscape]
      · by_cases h10 : c = 10
        · subst h10
          rw [escapeChar]
          norm_num
          rw [unesc_cons92]
          simp [unescEscape]
        · by_cases h13 : c = 13
          · subst h13
            rw [escapeChar]
            norm_num
            rw [unesc_cons92]
            simp [unescEscape]
          · by_cases h9 : c = 9
            · subst h9
              rw [escapeChar]
              norm_num
              rw [unesc_cons92]
              simp [unescEscape]
            · rw [escapeChar, if_neg hv, if_neg h8, if_neg h12, if_neg h10, if_neg h13, if_neg h9]
              exact unesc_hex c (by omega) r

/-- Un-escaping inverts the whole escaped content when the original string
contains no backslash. -/
theorem unescapeContents_escape (s : LC) (hs : 92 ∉ s) :
    unescapeContents ((s.map escapeChar).flatten) = some s := by
  induction s with
  | nil => rfl
  | cons c rest ih =>
    have hc : c ≠ 92 := fun h => hs (h ▸ List.mem_cons_self c rest)
    have hrest : 92 ∉ rest := fun h => hs (List.mem_cons_of_mem _ h)
    simp only [List.map_cons, List.flatten_cons]
    rw [unesc_escape_cons c hc, ih hrest]
    rfl

/-- Counterexample to C3 as stated: `make_string` passes the backslash
through verbatim, so the two-character string backslash-`b` escapes to the
literal `"\b"`, which un-escapes to the single backspace character — not to
the original string.  The round trip is not the identity on all inputs. -/
theorem thm_C3_cex :
    unescapeLiteral (make_string [92, 98]) = some [8] ∧ ([8] : LC) ≠ [92, 98] :=
  ⟨rfl, by decide⟩

/-- C3 (amended): for every input string containing no backslash (U+005C) —
control characters and characters above the 16-bit boundary included —
un-escaping the literal produced by `make_string` reconstructs the input
exactly.  (A backslash in the input collides with the escape syntax, see the
counterexample.) -/
theorem thm_C3 (s : LC) (hs : 92 ∉ s) : unescapeLiteral (make_string s) = some s := by
  rw [make_string]
  have hred : unescapeLiteral (34 :: (s.map escapeChar).flatten ++ [34]) =
      if (34 : Nat) = 34 ∧ ((s.map escapeChar).flatten ++ [34]).getLast? = some 34 then
        unescapeContents ((s.map escapeChar).flatten ++ [34]).dropLast
      else none := rfl
  rw [hred, if_pos ⟨rfl, List.getLast?_concat _⟩, List.dropLast_concat]
  exact unescapeContents_escape s hs

/-- Witness for C3 (amended) at a string with a control character, a
character above the 16-bit boundary and no backslash. -/
theorem thm_C3_witness :
    92 ∉ ([97, 10, 8364, 128512] : LC) ∧
    unescapeLiteral (make_string [97, 10, 8364, 128512]) = some [97, 10, 8364, 128512] :=
  ⟨by decide, thm_C3 [97, 10, 8364, 128512] (by decide)⟩

/-- After `UNSAFE_CHAR_RE.sub` every character is a word character. -/
theorem subWord (l : LC) :
    ∀ c ∈ l.map (fun c => if wordChar c then c else 95), wordChar c = true := by
  intro c hc
  rw [List.mem_map] at hc
  obtain ⟨a, _, ha⟩ := hc
  by_cases hw : wordChar a
  · rw [if_pos hw] at ha; rwa [← ha]
  · rw [if_neg hw] at ha; rw [← ha]; decide

/-- `collapseU` preserves the word-character invariant. -/
theorem collapse_word (l : LC) (h : ∀ c ∈ l, wordChar c = true) :
    ∀ c ∈ collapseU l, wordChar c = true := by
  induction l using collapseU.induct with
  | case1 => intro c hc; cases hc
  | case2 c0 => intro c hc; rw [collapseU] at hc; exact h c hc
  | case3 c0 d rest hcd ih =>
    intro c hc
    rw [collapseU, if_pos hcd] at hc
    exact ih (fun x hx => h x (List.mem_cons_of_mem _ hx)) c hc
  | case4 c0 d rest hcd ih =>
    intro c hc
    rw [collapseU, if_neg hcd] at hc
    rcases List.mem_cons.mp hc with h1 | h2
    · exact h1 ▸ h c0 (List.mem_cons_self _ _)
    · exact ih (fun x hx => h x (List.mem_cons_of_mem _ hx)) c h2

/-- `collapseU` keeps the head character. -/
theorem collapse_head (l : LC) : (collapseU l).head? = l.head? := by
  induction l using collapseU.induct with
  | case1 => rfl
  | case2 c0 => rfl
  | case3 c0 d rest hcd ih =>
    rw [collapseU, if_pos hcd, ih]
    simp [hcd.1, hcd.2]
  | case4 c0 d rest hcd ih => rw [collapseU, if_neg hcd]; rfl

/-- `collapseU` leaves no two adjacent underscores. -/
theorem collapse_noAdj (l : LC) : noAdj (collapseU l) := by
  induction l using collapseU.induct with
  | case1 => trivial
  | case2 c0 => exact ⟨fun _ => by simp, trivial⟩
  | case3 c0 d rest hcd ih => rw [collapseU, if_pos hcd]; exact ih
  | case4 c0 d rest hcd ih =>
    rw [collapseU, if_neg hcd]
    refine ⟨fun hc => ?_, ih⟩
    rw [collapse_head]
    simp only [List.head?_cons, ne_eq, Option.some.injEq]
    intro hd
    exact hcd ⟨hc, hd⟩

/-- `collapseU` fixes any list without adjacent underscores. -/
theorem collapse_fix (l : LC) (h : noAdj l) : collapseU l = l := by
  induction l using collapseU.induct with
  | case1 => rfl
  | case2 c0 => rfl
  | case3 c0 d rest hcd ih =>
    exact absurd (hcd.2) (by simpa [hcd.1] using h.1)
  | case4 c0 d rest hcd ih => rw [collapseU, if_neg hcd, ih h.2]

/-- Dropping the last character preserves the no-adjacent-underscores shape. -/
theorem dropLast_noAdj (l : LC) (h : noAdj l) : noAdj l.dropLast := by
  induction l with
  | nil => trivial
  | cons c rest ih =>
    cases rest with
    | nil => trivial
    | cons d rr =>
      obtain ⟨h1, h2⟩ := h
      refine ⟨fun hc => ?_, ih h2⟩
      cases rr with
      | nil => simp
      | cons e ss =>
        simp only [List.dropLast_cons₂, List.head?_cons, ne_eq, Option.some.injEq]
        intro hd
        exact (h1 hc) (by simp [hd])

/-- In a list with no adjacent underscores, the last two characters cannot
both be underscores: stripping one trailing underscore never leaves another. -/
theorem noAdj_no_double_last (l : LC) (h : noAdj l) (hl : l.getLast? = some 95) :
    l.dropLast.getLast? = some 95 → False := by
  induction l with
  | nil => simp at hl
  | cons c rest ih =>
    cases rest with
    | nil =>
      intro hdl
      simp at hdl
    | cons d rr =>
      obtain ⟨h1, h2⟩ := h
      rw [List.getLast?_cons_cons] at hl
      intro hdl
      cases rr with
      | nil =>
        simp at hl hdl
        exact (h1 hdl) (by simp [hl])
      | cons e ss =>
        rw [List.dropLast_cons₂] at hdl
        have hne : (d :: e :: ss).dropLast ≠ [] := by simp [List.dropLast_cons₂]
        rw [List.getLast?_cons] at hdl
        cases hx : (d :: e :: ss).dropLast.getLast? with
        | none => exact hne (List.getLast?_eq_none_iff.mp hx)
        | some x =>
          rw [hx] at hdl
          simp only [Option.getD_some, Option.some.injEq] at hdl
          exact ih h2 hl (by rw [hx, hdl])

/-- Joining a one-element list is the element itself. -/
theorem intercalate_single (x : LC) : List.intercalate [95] [x] = x := by
  simp [List.intercalate]

/-- `UNSAFE_CHAR_RE.sub` fixes a string of word characters. -/
theorem map_word_fix (l : LC) (h : ∀ c ∈ l, wordChar c = true) :
    l.map (fun c => if wordChar c then c else 95) = l := by
  conv_rhs => rw [← List.map_id l]
  exact List.map_congr_left (fun a ha => by rw [if_pos (h a ha)]; rfl)

/-- A non-digit word character is a valid identifier start. -/
theorem word_not_digit_start (c : Nat) (hw : wordChar c = true) (hd : digitChar c = false) :
    identStartChar c = true := by
  simp only [wordChar, digitChar, identStartChar, decide_eq_true_eq, decide_eq_false_iff_not] at *
  omega

/-- A digit is not an underscore. -/
theorem digit_ne_95 (c : Nat) (hd : digitChar c = true) : c ≠ 95 := by
  simp only [digitChar, decide_eq_true_eq] at hd
  omega

/-- Structural facts about every `make_ident` result: all word characters, no
adjacent underscores, non-empty, no leading digit, and no trailing underscore
except for the bare `"_"`. -/
theorem make_ident_props (comps : List LC) :
    (∀ c ∈ make_ident comps, wordChar c = true) ∧ noAdj (make_ident comps) ∧
    make_ident comps ≠ [] ∧
    (∀ c r, make_ident comps = c :: r → digitChar c = false) ∧
    (make_ident comps = [95] ∨ (make_ident comps).getLast? ≠ some 95) := by
  have hw1 := subWord (List.intercalate [95] comps)
  set l1 := (List.intercalate [95] comps).map (fun c => if wordChar c then c else 95) with hl1
  have hw2 := collapse_word l1 hw1
  have hadj2 := collapse_noAdj l1
  set l2 := collapseU l1 with hl2
  have hdef : make_ident comps =
      (match (if l2.getLast? = some 95 then l2.dropLast else l2) with
       | [] => [95]
       | c :: rest => if digitChar c then 95 :: c :: rest else c :: rest) := rfl
  set l3 := (if l2.getLast? = some 95 then l2.dropLast else l2) with hl3
  have hw3 : ∀ c ∈ l3, wordChar c = true := by
    rw [hl3]
    split
    · exact fun c hc => hw2 c ((List.dropLast_sublist l2).subset hc)
    · exact hw2
  have hadj3 : noAdj l3 := by
    rw [hl3]
    split
    · exact dropLast_noAdj l2 hadj2
    · exact hadj2
  have hlast3 : l3 = [] ∨ l3.getLast? ≠ some 95 := by
    rw [hl3]
    split
    · rename_i h95
      by_cases hnil : l2.dropLast = []
      · exact Or.inl hnil
      · exact Or.inr (fun hbad => noAdj_no_double_last l2 hadj2 h95 hbad)
    · rename_i h95
      exact Or.inr h95
  have hdefnil : l3 = [] → make_ident comps = [95] := by
    intro h
    rw [hdef, h]
  have hdefcons : ∀ c rest, l3 = c :: rest →
      make_ident comps = if digitChar c then 95 :: c :: rest else c :: rest := by
    intro c rest h
    rw [hdef, h]
  cases hl3v : l3 with
  | nil =>
    rw [hdefnil hl3v]
    refine ⟨by decide, ⟨by simp, trivial⟩, by simp, ?_, Or.inl rfl⟩
    intro c r h
    cases h
    decide
  | cons c rest =>
    have he := hdefcons c rest hl3v
    have hcw : wordChar c = true := hw3 c (by rw [hl3v]; exact List.mem_cons_self _ _)
    have hrw : ∀ x ∈ rest, wordChar x = true :=
      fun x hx => hw3 x (by rw [hl3v]; exact List.mem_cons_of_mem _ hx)
    have hadjcr : noAdj (c :: rest) := by rw [← hl3v]; exact hadj3
    have hlastcr : (c :: rest).getLast? ≠ some 95 := by
      rcases hlast3 with h | h
      · rw [hl3v] at h; cases h
      · rw [← hl3v]; exact h
    by_cases hd : digitChar c = true
    · rw [if_pos hd] at he
      rw [he]
      refine ⟨?_, ⟨?_, hadjcr⟩, by simp, ?_, Or.inr ?_⟩
      · intro x hx
        rcases List.mem_cons.mp hx with h | h
        · rw [h]; decide
        · rcases List.mem_cons.mp h with h2 | h2
          · rw [h2]; exact hcw
          · exact hrw x h2
      · intro _
        simp only [List.head?_cons, ne_eq, Option.some.injEq]
        exact fun hc => digit_ne_95 c hd hc
      · intro c' r' hh
        cases hh
        decide
      · rw [List.getLast?_cons_cons]
        exact hlastcr
    · rw [if_neg hd] at he
      rw [he]
      refine ⟨?_, hadjcr, by simp, ?_, Or.inr hlastcr⟩
      · intro x hx
        rcases List.mem_cons.mp hx with h | h
        · rw [h]; exact hcw
        · exact hrw x h
      · intro c' r' hh
        cases hh
        exact eq_false_of_ne_true hd

/-- `make_ident` fixes any string with the structural properties its outputs
have. -/
theorem make_ident_fix (o : LC)
    (P1 : ∀ c ∈ o, wordChar c = true) (P2 : noAdj o) (P3 : o ≠ [])
    (P4 : ∀ c r, o = c :: r → digitChar c = false)
    (P5 : o = [95] ∨ o.getLast? ≠ some 95) :
    make_ident [o] = o := by
  rcases P5 with h95 | hne
  · rw [h95]
    rfl
  · have hdef : make_ident [o] =
        (match (if (collapseU ((List.intercalate [95] [o]).map
                  (fun c => if wordChar c then c else 95))).getLast? = some 95
                then (collapseU ((List.intercalate [95] [o]).map
                  (fun c => if wordChar c then c else 95))).dropLast
                else collapseU ((List.intercalate [95] [o]).map
                  (fun c => if wordChar c then c else 95))) with
         | [] => [95]
         | c :: rest => if digitChar c then 95 :: c :: rest else c :: rest) := rfl
    rw [intercalate_single, map_word_fix o P1, collapse_fix o P2] at hdef
    rw [hdef, if_neg hne]
    cases ho : o with
    | nil => exact absurd ho P3
    | cons c rest =>
      show (if digitChar c then 95 :: c :: rest else c :: rest) = c :: rest
      rw [if_neg (by simp [P4 c rest ho])]

/-- C7: for every component list — the empty string, symbol-only strings and
digit-leading strings included — `make_ident` returns a non-empty valid
identifier matching `[A-Za-z_][A-Za-z0-9_]*` (that is what `is_ident`
checks, and it rejects the empty string), and `make_ident` is idempotent:
applied to its own output it returns that output unchanged. -/
theorem thm_C7 (comps : List LC) :
    is_ident (make_ident comps) = true ∧ make_ident [make_ident comps] = make_ident comps := by
  obtain ⟨P1, P2, P3, P4, P5⟩ := make_ident_props comps
  refine ⟨?_, make_ident_fix _ P1 P2 P3 P4 P5⟩
  cases ho : make_ident comps with
  | nil => exact absurd ho P3
  | cons c rest =>
    have hcw : wordChar c = true := P1 c (ho ▸ List.mem_cons_self _ _)
    have hcd : digitChar c = false := P4 c rest ho
    show (identStartChar c && rest.all wordChar) = true
    rw [Bool.and_eq_true]
    refine ⟨word_not_digit_start c hcw hcd, ?_⟩
    rw [List.all_eq_true]
    exact fun x hx => P1 x (ho ▸ List.mem_cons_of_mem _ hx)

/-- `decVal` inverts `decReprAux` whenever the fuel covers the number. -/
theorem decVal_decReprAux : ∀ fuel n, n ≤ fuel → decVal (decReprAux fuel n) = n := by
  intro fuel
  induction fuel with
  | zero =>
    intro n hn
    interval_cases n
    rfl
  | succ f ih =>
    intro n hn
    rw [decReprAux]
    by_cases h10 : n < 10
    · rw [if_pos h10]
      simp [decVal]
    · rw [if_neg h10]
      have hle : n / 10 ≤ f := by omega
      have hrec := ih (n / 10) hle
      rw [decVal] at hrec ⊢
      rw [List.foldl_append, hrec]
      simp
      omega

/-- Decimal rendering is injective. -/
theorem decRepr_inj (a b : Nat) (h : decRepr a = decRepr b) : a = b := by
  have ha := decVal_decReprAux a a le_rfl
  have hb := decVal_decReprAux b b le_rfl
  rw [decRepr] at h
  rw [← ha, ← hb, h]
  rfl

/-- The suffixed candidates `name_i` of `uniquify` are pairwise distinct. -/
theorem cand_inj (name : LC) (i j : Nat)
    (h : name ++ 95 :: decRepr i = name ++ 95 :: decRepr j) : i = j := by
  have h2 := List.append_cancel_left h
  rw [List.cons.injEq] at h2
  exact decRepr_inj i j h2.2

/-- Pigeonhole: among `used.length + 1` distinct suffixed candidates, at least
one is not in `used`, so the `while` loop of `uniquify` terminates within the
fuel `uniquify` hands to `uniquify_go`. -/
theorem exists_unused (used : List LC) (name : LC) (i : Nat) :
    ∃ k, i ≤ k ∧ k < i + (used.length + 1) ∧ name ++ 95 :: decRepr k ∉ used := by
  by_contra hall
  push_neg at hall
  have hinj : Function.Injective (fun t => name ++ 95 :: decRepr (i + t)) := by
    intro a b hab
    have := cand_inj name (i + a) (i + b) hab
    omega
  have hnd : ((List.range (used.length + 1)).map
      (fun t => name ++ 95 :: decRepr (i + t))).Nodup :=
    (List.nodup_range _).map hinj
  have hsub : ∀ x ∈ (List.range (used.length + 1)).map
      (fun t => name ++ 95 :: decRepr (i + t)), x ∈ used := by
    intro x hx
    rw [List.mem_map] at hx
    obtain ⟨t, ht, rfl⟩ := hx
    rw [List.mem_range] at ht
    exact hall (i + t) (by omega) (by omega)
  have hlen := (List.subperm_of_subset hnd hsub).length_le
  simp at hlen

/-- The search loop returns the candidate with the FIRST unused suffix, and
that candidate is unused — provided some candidate within the fuel window is
unused (which `exists_unused` guarantees at the call site). -/
theorem uniquify_go_found (used : List LC) (name : LC) :
    ∀ fuel i, (∃ k, i ≤ k ∧ k < i + fuel ∧ name ++ 95 :: decRepr k ∉ used) →
    uniquify_go used name fuel i ∉ used ∧
    ∃ m, i ≤ m ∧ uniquify_go used name fuel i = name ++ 95 :: decRepr m ∧
      ∀ j, i ≤ j → j < m → name ++ 95 :: decRepr j ∈ used := by
  intro fuel
  induction fuel with
  | zero =>
    intro i ⟨k, hk1, hk2, _⟩
    omega
  | succ f ih =>
    intro i ⟨k, hk1, hk2, hk3⟩
    rw [uniquify_go]
    by_cases hc : name ++ 95 :: decRepr i ∈ used
    · rw [if_pos hc]
      have hki : k ≠ i := fun he => hk3 (he ▸ hc)
      obtain ⟨hnotin, m, hm1, hm2, hm3⟩ := ih (i + 1) ⟨k, by omega, by omega, hk3⟩
      refine ⟨hnotin, m, by omega, hm2, ?_⟩
      intro j hj1 hj2
      by_cases hji : j = i
      · exact hji ▸ hc
      · exact hm3 j (by omega) hj2
    · rw [if_neg hc]
      exact ⟨hc, i, le_rfl, rfl, fun j hj1 hj2 => by omega⟩

/-- Every `uniquify` call returns a name not in the used set and marks it
used. -/
theorem uniquify_spec (used : List LC) (name : LC) :
    (uniquify used name).1 ∉ used ∧ (uniquify used name).2 = (uniquify used name).1 :: used := by
  rw [uniquify]
  by_cases h : name ∈ used
  · rw [if_pos h]
    obtain ⟨hnotin, _⟩ :=
      uniquify_go_found used name (used.length + 1) 2 (exists_unused used name 2)
    exact ⟨hnotin, rfl⟩
  · rw [if_neg h]
    exact ⟨h, rfl⟩

/-- A run of `uniquify` calls issues pairwise-distinct names, none of them
previously used. -/
theorem uniquifyAll_spec (cands : List LC) : ∀ used : List LC,
    (uniquifyAll used cands).1.Nodup ∧ ∀ r ∈ (uniquifyAll used cands).1, r ∉ used := by
  induction cands with
  | nil => intro used; exact ⟨List.nodup_nil, by simp [uniquifyAll]⟩
  | cons c cs ih =>
    intro used
    obtain ⟨hp1, hp2⟩ := uniquify_spec used c
    obtain ⟨hq1, hq2⟩ := ih (uniquify used c).2
    rw [uniquifyAll]
    constructor
    · rw [List.nodup_cons]
      refine ⟨fun hmem => ?_, hq1⟩
      have := hq2 _ hmem
      rw [hp2] at this
      exact this (List.mem_cons_self _ _)
    · intro r hr
      rcases List.mem_cons.mp hr with h1 | h2
      · exact h1 ▸ hp1
      · have := hq2 r h2
        rw [hp2] at this
        exact fun hru => this (List.mem_cons_of_mem _ hru)

/-- C8: within one run, any sequence of `uniquify` calls — repeated
candidates included — returns pairwise-distinct names, none of them already
in the used set; and on a collision the result is the candidate with the
FIRST unused `_2, _3, ...` suffix appended (every smaller suffix from 2 up is
already in use). -/
theorem thm_C8 :
    (∀ used cands : List LC,
      (uniquifyAll used cands).1.Nodup ∧ ∀ r ∈ (uniquifyAll used cands).1, r ∉ used) ∧
    (∀ (used : List LC) (name : LC), name ∈ used →
      ∃ i, 2 ≤ i ∧ (uniquify used name).1 = name ++ 95 :: decRepr i ∧
        (uniquify used name).1 ∉ used ∧
        ∀ j, 2 ≤ j → j < i → name ++ 95 :: decRepr j ∈ used) := by
  constructor
  · intro used cands
    exact uniquifyAll_spec cands used
  · intro used name hmem
    have hgo := uniquify_go_found used name (used.length + 1) 2 (exists_unused used name 2)
    obtain ⟨hnotin, m, hm1, hm2, hm3⟩ := hgo
    refine ⟨m, hm1, ?_, ?_, ?_⟩
    · rw [uniquify, if_pos hmem]
      exact hm2
    · rw [uniquify, if_pos hmem]
      exact hnotin
    · exact hm3

/-- Witness for C8: three requests for `a` in a fresh run are all distinct,
and a collision on a used `a` yields a suffixed fresh name. -/
theorem thm_C8_witness :
    ((uniquifyAll [] [lc ("a"), lc ("a"), lc ("a")]).1.Nodup ∧
      ∀ r ∈ (uniquifyAll [] [lc ("a"), lc ("a"), lc ("a")]).1, r ∉ ([] : List LC)) ∧
    (∃ i, 2 ≤ i ∧ (uniquify [lc ("a")] (lc ("a"))).1 = lc ("a") ++ 95 :: decRepr i ∧
      (uniquify [lc ("a")] (lc ("a"))).1 ∉ [lc ("a")] ∧
      ∀ j, 2 ≤ j → j < i → lc ("a") ++ 95 :: decRepr j ∈ [lc ("a")]) :=
  ⟨thm_C8.1 [] [lc ("a"), lc ("a"), lc ("a")], thm_C8.2 [lc ("a")] (lc ("a")) (by decide)⟩

/-- A string occurs in the middle of any surrounding context. -/
theorem occursIn_mid (sym a b : LC) : occursIn sym (a ++ sym ++ b) := ⟨a, b, rfl⟩

/-- Occurrence survives prefixing. -/
theorem occursIn_prepend (a : LC) {sym t : LC} (h : occursIn sym t) : occursIn sym (a ++ t) := by
  obtain ⟨x, y, hxy⟩ := h
  exact ⟨a ++ x, y, by rw [hxy]; simp⟩

/-- Occurrence survives suffixing. -/
theorem occursIn_extend (b : LC) {sym t : LC} (h : occursIn sym t) : occursIn sym (t ++ b) := by
  obtain ⟨x, y, hxy⟩ := h
  exact ⟨x, y ++ b, by rw [hxy]; simp⟩

/-- Whatever occurs in a binding's subtree text occurs in the binding's
statement. -/
theorem occursIn_rawStmt (sym0 sym sub : LC) (h : occursIn sym sub) :
    occursIn sym (rawStmt sym0 sub) := by
  rw [rawStmt]
  exact occursIn_extend (lc (";\n\n")) (occursIn_prepend (lc ("raw ") ++ sym0 ++ lc (" = ")) h)

/-- `HoistOK` transports along any occurrence-preserving map of the final
text. -/
theorem hoistOK_mono {t t' : LC} (hmono : ∀ s, occursIn s t → occursIn s t') :
    ∀ {Δ : List LC}, HoistOK Δ t → HoistOK Δ t'
  | [], _ => trivial
  | s :: rest, h => by
    obtain ⟨⟨sym, sub, hs, hor⟩, hrest⟩ := h
    refine ⟨⟨sym, sub, hs, ?_⟩, hoistOK_mono hmono hrest⟩
    rcases hor with h1 | h2
    · exact Or.inl (hmono sym h1)
    · exact Or.inr h2

/-- `HoistOK` lists concatenate. -/
theorem hoistOK_append {t : LC} :
    ∀ {Δ₁ Δ₂ : List LC}, HoistOK Δ₁ t → HoistOK Δ₂ t → HoistOK (Δ₁ ++ Δ₂) t
  | [], Δ₂, _, h2 => h2
  | s :: rest, Δ₂, h1, h2 => by
    obtain ⟨⟨sym, sub, hs, hor⟩, hrest⟩ := h1
    refine ⟨⟨sym, sub, hs, ?_⟩, hoistOK_append hrest h2⟩
    rcases hor with ha | ⟨r, hr, ho⟩
    · exact Or.inl ha
    · exact Or.inr ⟨r, List.mem_append_left _ hr, ho⟩

/-- Appending the enclosing `raw` binding after the bindings hoisted while
rendering its subtree keeps the invariant: the inner bindings' symbols occur
in the appended statement (which contains the subtree text), and the new
binding's own symbol occurs in `t`. -/
theorem hoistOK_hoist {t sub0 sym0 : LC} (hocc : occursIn sym0 t) :
    ∀ {Δ : List LC}, HoistOK Δ sub0 → HoistOK (Δ ++ [rawStmt sym0 sub0]) t
  | [], _ => ⟨⟨sym0, sub0, rfl, Or.inl hocc⟩, trivial⟩
  | s :: rest, h => by
    obtain ⟨⟨sym, sub, hs, hor⟩, hrest⟩ := h
    refine ⟨⟨sym, sub, hs, ?_⟩, hoistOK_hoist hocc hrest⟩
    rcases hor with ha | ⟨r, hr, ho⟩
    · exact Or.inr ⟨rawStmt sym0 sub0,
        List.mem_append_right _ (List.mem_singleton_self _),
        occursIn_rawStmt sym0 sym sub0 ha⟩
    · exact Or.inr ⟨r, List.mem_append_left _ hr, ho⟩

mutual
/-- The serializer only appends to the output, and everything it appends is a
`raw` hoist statement whose symbol occurs in a later appended statement or in
the returned text. -/
theorem dfs_helper_hoist (lk : Tables) (ref : LC) (node : Json) (indent : LC) (st : St) :
    ∃ Δ, (dfs_helper lk ref node indent st).2.output = st.output ++ Δ ∧
      HoistOK Δ (dfs_helper lk ref node indent st).1 := by
  cases node with
  | null => exact ⟨[], by simp [dfs_helper], trivial⟩
  | bool b => exact ⟨[], by simp [dfs_helper], trivial⟩
  | int n => exact ⟨[], by simp [dfs_helper], trivial⟩
  | str s => exact ⟨[], by simp [dfs_helper], trivial⟩
  | arr items =>
    have hd : dfs_helper lk ref (Json.arr items) indent st =
        (91 :: (dfs_items lk ref indent items true st).1 ++ 10 :: indent ++ [93],
         (dfs_items lk ref indent items true st).2) := rfl
    rw [hd]
    obtain ⟨Δ, h1, h2⟩ := dfs_items_hoist lk ref items indent true st
    refine ⟨Δ, h1, hoistOK_mono (fun s hs => ?_) h2⟩
    exact occursIn_extend [93] (occursIn_extend (10 :: indent) (occursIn_prepend [91] hs))
  | obj fields =>
    have hd : dfs_helper lk ref (Json.obj fields) indent st =
        (123 :: (dfs_fields lk ref indent fields true st).1 ++ 10 :: indent ++ [125],
         (dfs_fields lk ref indent fields true st).2) := rfl
    rw [hd]
    obtain ⟨Δ, h1, h2⟩ := dfs_fields_hoist lk ref fields indent true st
    refine ⟨Δ, h1, hoistOK_mono (fun s hs => ?_) h2⟩
    exact occursIn_extend [125] (occursIn_extend (10 :: indent) (occursIn_prepend [123] hs))

/-- `dfs_helper_hoist` for the field loop. -/
theorem dfs_fields_hoist (lk : Tables) (ref : LC) (fs : List (LC × Json))
    (indent : LC) (first : Bool) (st : St) :
    ∃ Δ, (dfs_fields lk ref indent fs first st).2.output = st.output ++ Δ ∧
      HoistOK Δ (dfs_fields lk ref indent fs first st).1 := by
  cases fs with
  | nil => exact ⟨[], by simp [dfs_fields], trivial⟩
  | cons kv rest =>
    obtain ⟨key, val⟩ := kv
    by_cases h1 : (key = lc ("functionReference") ∨ key = lc ("comparisonFunctionReference")) ∧
        ((jintVal val).isSome = true)
    · have hd : dfs_fields lk ref indent ((key, val) :: rest) first st =
          ((if first then [] else [44]) ++ 10 :: indent ++ lc ("  ") ++ make_string key ++
             lc (": ") ++ ((tget lk.fnL ((jintVal val).getD 0)).getD (pyStr val)) ++
             (dfs_fields lk ref indent rest false st).1,
           (dfs_fields lk ref indent rest false st).2) := by
        simp only [dfs_fields]
        rw [if_pos h1]
      rw [hd]
      obtain ⟨Δ, hq1, hq2⟩ := dfs_fields_hoist lk ref rest indent false st
      exact ⟨Δ, hq1, hoistOK_mono (fun s hs => occursIn_prepend _ hs) hq2⟩
    · by_cases h2 : key = lc ("userDefinedTypeReference") ∧ ((jintVal val).isSome = true)
      · have hd : dfs_fields lk ref indent ((key, val) :: rest) first st =
            ((if first then [] else [44]) ++ 10 :: indent ++ lc ("  ") ++ make_string key ++
               lc (": ") ++ ((tget lk.typL ((jintVal val).getD 0)).getD (pyStr val)) ++
               (dfs_fields lk ref indent rest false st).1,
             (dfs_fields lk ref indent rest false st).2) := by
          simp only [dfs_fields]
          rw [if_neg h1, if_pos h2]
        rw [hd]
        obtain ⟨Δ, hq1, hq2⟩ := dfs_fields_hoist lk ref rest indent false st
        exact ⟨Δ, hq1, hoistOK_mono (fun s hs => occursIn_prepend _ hs) hq2⟩
      · by_cases h3 : key = lc ("typeVariationReference") ∧ ((jintVal val).isSome = true)
        · have hd : dfs_fields lk ref indent ((key, val) :: rest) first st =
              ((if first then [] else [44]) ++ 10 :: indent ++ lc ("  ") ++ make_string key ++
                 lc (": ") ++ ((tget lk.tvL ((jintVal val).getD 0)).getD (pyStr val)) ++
                 (dfs_fields lk ref indent rest false st).1,
               (dfs_fields lk ref indent rest false st).2) := by
            simp only [dfs_fields]
            rw [if_neg h1, if_neg h2, if_pos h3]
          rw [hd]
          obtain ⟨Δ, hq1, hq2⟩ := dfs_fields_hoist lk ref rest indent false st
          exact ⟨Δ, hq1, hoistOK_mono (fun s hs => occursIn_prepend _ hs) hq2⟩
        · by_cases h4 : key = lc ("input") ∧ (isObjJ val = true)
          · have hd : dfs_fields lk ref indent ((key, val) :: rest) first st =
                ((if first then [] else [44]) ++ 10 :: indent ++ lc ("  ") ++ make_string key ++
                   lc (": ") ++
                   (uniquify (dfs_helper lk ref val [] st).2.used
                     (make_ident [ref, input_hint val])).1 ++
                   (dfs_fields lk ref indent rest false
                     ⟨(uniquify (dfs_helper lk ref val [] st).2.used
                         (make_ident [ref, input_hint val])).2,
                      (dfs_helper lk ref val [] st).2.output ++
                        [rawStmt
                          (uniquify (dfs_helper lk ref val [] st).2.used
                            (make_ident [ref, input_hint val])).1
                          (dfs_helper lk ref val [] st).1]⟩).1,
                 (dfs_fields lk ref indent rest false
                   ⟨(uniquify (dfs_helper lk ref val [] st).2.used
                       (make_ident [ref, input_hint val])).2,
                    (dfs_helper lk ref val [] st).2.output ++
                      [rawStmt
                        (uniquify (dfs_helper lk ref val [] st).2.used
                          (make_ident [ref, input_hint val])).1
                        (dfs_helper lk ref val [] st).1]⟩).2) := by
              simp only [dfs_fields]
              rw [if_neg h1, if_neg h2, if_neg h3, if_pos h4]
            rw [hd]
            obtain ⟨Δp, hp1, hp2⟩ := dfs_helper_hoist lk ref val [] st
            obtain ⟨Δq, hq1, hq2⟩ := dfs_fields_hoist lk ref rest indent false
              ⟨(uniquify (dfs_helper lk ref val [] st).2.used
                  (make_ident [ref, input_hint val])).2,
               (dfs_helper lk ref val [] st).2.output ++
                 [rawStmt
                   (uniquify (dfs_helper lk ref val [] st).2.used
                     (make_ident [ref, input_hint val])).1
                   (dfs_helper lk ref val [] st).1]⟩
            refine ⟨Δp ++
                [rawStmt
                  (uniquify (dfs_helper lk ref val [] st).2.used
                    (make_ident [ref, input_hint val])).1
                  (dfs_helper lk ref val [] st).1] ++ Δq, ?_, ?_⟩
            · rw [hq1]
              simp only [St.mk.injEq]
              rw [hp1]
              simp [List.append_assoc]
            · have hocc : occursIn
                  (uniquify (dfs_helper lk ref val [] st).2.used
                    (make_ident [ref, input_hint val])).1
                  ((if first then [] else [44]) ++ 10 :: indent ++ lc ("  ") ++
                    make_string key ++ lc (": ") ++
                    (uniquify (dfs_helper lk ref val [] st).2.used
                      (make_ident [ref, input_hint val])).1 ++
                    (dfs_fields lk ref indent rest false
                      ⟨(uniquify (dfs_helper lk ref val [] st).2.used
                          (make_ident [ref, input_hint val])).2,
                       (dfs_helper lk ref val [] st).2.output ++
                         [rawStmt
                           (uniquify (dfs_helper lk ref val [] st).2.used
                             (make_ident [ref, input_hint val])).1
                           (dfs_helper lk ref val [] st).1]⟩).1) := occursIn_mid _ _ _
              exact hoistOK_append (hoistOK_hoist hocc hp2)
                (hoistOK_mono (fun s hs => occursIn_prepend _ hs) hq2)
          · have hd : dfs_fields lk ref indent ((key, val) :: rest) first st =
                ((if first then [] else [44]) ++ 10 :: indent ++ lc ("  ") ++ make_string key ++
                   lc (": ") ++ (dfs_helper lk ref val (indent ++ lc ("  ")) st).1 ++
                   (dfs_fields lk ref indent rest false
                     (dfs_helper lk ref val (indent ++ lc ("  ")) st).2).1,
                 (dfs_fields lk ref indent rest false
                   (dfs_helper lk ref val (indent ++ lc ("  ")) st).2).2) := by
              simp only [dfs_fields]
              rw [if_neg h1, if_neg h2, if_neg h3, if_neg h4]
            rw [hd]
            obtain ⟨Δp, hp1, hp2⟩ := dfs_helper_hoist lk ref val (indent ++ lc ("  ")) st
            obtain ⟨Δq, hq1, hq2⟩ := dfs_fields_hoist lk ref rest indent false
              (dfs_helper lk ref val (indent ++ lc ("  ")) st).2
            refine ⟨Δp ++ Δq, ?_, ?_⟩
            · rw [hq1, hp1]
              simp [List.append_assoc]
            · refine hoistOK_append (hoistOK_mono (fun s hs => ?_) hp2)
                (hoistOK_mono (fun s hs => occursIn_prepend _ hs) hq2)
              exact occursIn_extend _ (occursIn_prepend _ hs)

/-- `dfs_helper_hoist` for the list loop. -/
theorem dfs_items_hoist (lk : Tables) (ref : LC) (items : List Json)
    (indent : LC) (first : Bool) (st : St) :
    ∃ Δ, (dfs_items lk ref indent items first st).2.output = st.output ++ Δ ∧
      HoistOK Δ (dfs_items lk ref indent items first st).1 := by
  cases items with
  | nil => exact ⟨[], by simp [dfs_items], trivial⟩
  | cons v rest =>
    have hd : dfs_items lk ref indent (v :: rest) first st =
        ((if first then [] else [44]) ++ 10 :: indent ++ lc ("  ") ++
           (dfs_helper lk ref v (indent ++ lc ("  ")) st).1 ++
           (dfs_items lk ref indent rest false
             (dfs_helper lk ref v (indent ++ lc ("  ")) st).2).1,
         (dfs_items lk ref indent rest false
           (dfs_helper lk ref v (indent ++ lc ("  ")) st).2).2) := rfl
    rw [hd]
    obtain ⟨Δp, hp1, hp2⟩ := dfs_helper_hoist lk ref v (indent ++ lc ("  ")) st
    obtain ⟨Δq, hq1, hq2⟩ := dfs_items_hoist lk ref rest indent false
      (dfs_helper lk ref v (indent ++ lc ("  ")) st).2
    refine ⟨Δp ++ Δq, ?_, ?_⟩
    · rw [hq1, hp1]
      simp [List.append_assoc]
    · refine hoistOK_append (hoistOK_mono (fun s hs => ?_) hp2)
        (hoistOK_mono (fun s hs => occursIn_prepend _ hs) hq2)
      exact occursIn_extend _ (occursIn_prepend _ hs)
end

/-- C6: in the output of every `emit_raw_json` run the statements appended to
the accumulator are exactly the hoisted `raw` bindings followed by the
enclosing `raw` binding, and every hoisted binding's symbol occurs textually
in a statement appended strictly later (another hoisted binding or the final
enclosing statement, which contains the rendered tree with the bare symbols
substituted) — each hoisted binding precedes the statement that references
it. -/
theorem thm_C6 (lk : Tables) (ref : LC) (data : Json) (st : St) :
    ∃ Δ root,
      (emit_raw_json lk ref data st).output = st.output ++ Δ ++ [rawStmt ref root] ∧
      HoistOK Δ (rawStmt ref root) := by
  obtain ⟨Δ, h1, h2⟩ := dfs_helper_hoist lk ref data [] st
  refine ⟨Δ, (dfs_helper lk ref data [] st).1, ?_, ?_⟩
  · have hd : (emit_raw_json lk ref data st).output =
        (dfs_helper lk ref data [] st).2.output ++
          [rawStmt ref (dfs_helper lk ref data [] st).1] := rfl
    rw [hd, h1]
  · exact hoistOK_mono (fun s hs => occursIn_rawStmt ref s _ hs) h2
